import Mathlib

/-!
Verification of the fscache repository: a filesystem LRU cache ordered by
access time (atime).  The development shallowly embeds the Go sources:

* `heap.go` — the `fileInfoHeap` ordering (`Less` compares atimes); the
  `container/heap` standard-library container is embedded by its contract:
  popping returns a least element under `Less` and removes it.
* `cache.go` (the `Cache` variant) — `New`, `gc`, `Set`, `Get`, `Has`.
* `atomicfile.go` — `atomicWriteFile`, `atomicFileWriter.Close`.
* the earlier `FsCache` variant of `cache.go` — its `gc` with the advisory
  `gc.lock` file (flock `TryLock` / `Unlock`).

Machine integers (`int64`) are embedded as `Int`; file sizes reported by the
filesystem are non-negative, which appears as a hypothesis where needed.
Fallible filesystem operations are driven by explicit environments of
success/failure flags, and a Go runtime panic is `Option.none`.
-/

set_option autoImplicit false

/-- Embedding of `syscall.Timespec` (the `Atim` field of `syscall.Stat_t`):
seconds and nanoseconds of a timestamp. -/
structure Timespec where
  sec : Int
  nsec : Int
deriving Repr, DecidableEq

/-- Embedding of `time.Time.Before` on timestamps built by `time.Unix`:
lexicographic comparison of (sec, nsec). -/
def Timespec.before (a b : Timespec) : Bool :=
  decide (a.sec < b.sec) || (decide (a.sec = b.sec) && decide (a.nsec < b.nsec))

theorem Timespec.before_irrefl (a : Timespec) : a.before a = false := by
  simp [Timespec.before]

theorem Timespec.before_false_trans (a b c : Timespec)
    (hab : a.before b = false) (hbc : b.before c = false) :
    a.before c = false := by
  simp only [Timespec.before, Bool.or_eq_false_iff, Bool.and_eq_false_iff,
    decide_eq_false_iff_not] at *
  omega

theorem Timespec.before_asymm (a b : Timespec) (h : a.before b = true) :
    b.before a = false := by
  simp only [Timespec.before, Bool.or_eq_true, Bool.and_eq_true,
    Bool.or_eq_false_iff, Bool.and_eq_false_iff,
    decide_eq_false_iff_not, decide_eq_true_eq] at *
  omega

/-- Embedding of the part of `os.FileInfo` the cache uses: `Name()` (the key,
since entries are stored as `<cacheDir>/cache/<key>`), `Size()` and the
access time from `Sys().(*syscall.Stat_t).Atim`. -/
structure FileInfo where
  name : String
  size : Int
  atime : Timespec
deriving Repr, DecidableEq

/-- Embedding of `fileInfoHeap.Less` from heap.go: comparison of access
times with `time.Time.Before`. -/
def fileInfoLess (a b : FileInfo) : Bool :=
  a.atime.before b.atime

/-- Embedding of `heap.Pop` on a `fileInfoHeap` by the `container/heap`
contract: return a least element under `fileInfoLess` together with the
remaining entries, or `none` on an empty heap (where the Go code panics).
Ties are broken deterministically in favour of the earliest element. -/
def heapPopMin : List FileInfo → Option (FileInfo × List FileInfo)
  | [] => none
  | x :: xs =>
    match heapPopMin xs with
    | none => some (x, [])
    | some (m, rest) =>
      if fileInfoLess m x then some (m, x :: rest) else some (x, xs)

theorem heapPopMin_eq_none (l : List FileInfo) :
    heapPopMin l = none ↔ l = [] := by
  cases l with
  | nil => simp [heapPopMin]
  | cons x xs =>
    simp only [heapPopMin]
    cases h : heapPopMin xs with
    | none => simp
    | some p =>
      cases p with
      | mk m rest => by_cases hc : fileInfoLess m x <;> simp [hc]

/-- The element returned by `heapPopMin` is a member of the heap, the rest is
the heap with that occurrence erased, and no element of the heap is strictly
smaller. -/
theorem heapPopMin_spec (l : List FileInfo) (m : FileInfo) (rest : List FileInfo)
    (h : heapPopMin l = some (m, rest)) :
    m ∈ l ∧ rest = l.erase m ∧ ∀ g ∈ l, fileInfoLess g m = false := by
  induction l generalizing m rest with
  | nil => simp [heapPopMin] at h
  | cons x xs ih =>
    simp only [heapPopMin] at h
    cases hx : heapPopMin xs with
    | none =>
      rw [hx] at h
      dsimp only at h
      have hxs : xs = [] := (heapPopMin_eq_none xs).mp hx
      simp only [Option.some.injEq, Prod.mk.injEq] at h
      obtain ⟨hm, hr⟩ := h
      rw [← hm, ← hr]
      subst hxs
      refine ⟨List.mem_cons_self _ _, ?_, ?_⟩
      · simp [List.erase_cons_head]
      · intro g hg
        rcases List.mem_singleton.mp hg with rfl
        exact Timespec.before_irrefl _
    | some p =>
      rw [hx] at h
      obtain ⟨m', rest'⟩ := p
      dsimp only at h
      obtain ⟨hmem, hrest, hmin⟩ := ih m' rest' hx
      by_cases hc : fileInfoLess m' x
      · rw [if_pos hc] at h
        simp only [Option.some.injEq, Prod.mk.injEq] at h
        obtain ⟨hm, hr⟩ := h
        rw [← hm, ← hr]
        have hxm : ¬(x == m') = true := by
          simp only [beq_iff_eq]
          intro hxe
          rw [hxe] at hc
          have : fileInfoLess m' m' = false := Timespec.before_irrefl _
          rw [this] at hc
          exact Bool.false_ne_true hc
        refine ⟨List.mem_cons_of_mem _ hmem, ?_, ?_⟩
        · rw [List.erase_cons_tail hxm, ← hrest]
        · intro g hg
          rcases List.mem_cons.mp hg with rfl | hg'
          · exact Timespec.before_asymm _ _ hc
          · exact hmin g hg'
      · rw [if_neg hc] at h
        simp only [Option.some.injEq, Prod.mk.injEq] at h
        obtain ⟨hm, hr⟩ := h
        rw [← hm, ← hr]
        refine ⟨List.mem_cons_self _ _, ?_, ?_⟩
        · simp [List.erase_cons_head]
        · intro g hg
          rcases List.mem_cons.mp hg with rfl | hg'
          · exact Timespec.before_irrefl _
          · exact Timespec.before_false_trans _ _ _ (hmin g hg')
              (Bool.of_not_eq_true hc)

theorem heapPopMin_length (l : List FileInfo) (m : FileInfo) (rest : List FileInfo)
    (h : heapPopMin l = some (m, rest)) :
    rest.length + 1 = l.length := by
  obtain ⟨hmem, hrest, _⟩ := heapPopMin_spec l m rest h
  subst hrest
  rw [List.length_erase_of_mem hmem]
  have : 1 ≤ l.length := List.length_pos.mpr (List.ne_nil_of_mem hmem)
  omega

/-- Total size of the files seen by the directory walk: the running
`curBytes += info.Size()` accumulation in `Cache.gc` / `FsCache.init`. -/
def sumSizes : List FileInfo → Int
  | [] => 0
  | fi :: rest => fi.size + sumSizes rest

theorem sumSizes_erase (l : List FileInfo) (a : FileInfo) (ha : a ∈ l) :
    sumSizes (l.erase a) = sumSizes l - a.size := by
  induction l with
  | nil => simp at ha
  | cons x xs ih =>
    by_cases hx : x = a
    · subst hx
      rw [List.erase_cons_head]
      simp [sumSizes]
    · have hbe : ¬(x == a) = true := by simp [beq_iff_eq, hx]
      rw [List.erase_cons_tail hbe]
      have ha' : a ∈ xs := by
        rcases List.mem_cons.mp ha with h | h
        · exact absurd h.symm hx
        · exact h
      simp only [sumSizes, ih ha']
      ring

theorem sumSizes_nonneg (l : List FileInfo) (h : ∀ fi ∈ l, 0 ≤ fi.size) :
    0 ≤ sumSizes l := by
  induction l with
  | nil => simp [sumSizes]
  | cons x xs ih =>
    simp only [sumSizes]
    have hx := h x (List.mem_cons_self _ _)
    have := ih (fun fi hfi => h fi (List.mem_cons_of_mem _ hfi))
    omega

/-- Embedding of the pop-and-accumulate loop shared by both `gc` versions:

    for bytesSoFar < needGcBytes { fi := heap.Pop(&fih); bytesSoFar += fi.Size(); keysToGc = append(keysToGc, fi.Name()) }

The remaining budget `needed - bytesSoFar` is threaded instead of
`bytesSoFar` itself (the loop guard `bytesSoFar < needed` becomes
`0 < needed`).  The result is the collected keys, the final `bytesSoFar`,
and the heap contents left after the pops; `none` is the Go panic of
`heap.Pop` on an empty heap. -/
def gcPopLoop (fih : List FileInfo) (needed : Int) :
    Option (List String × Int × List FileInfo) :=
  if needed ≤ 0 then some ([], 0, fih)
  else
    match h : heapPopMin fih with
    | none => none
    | some (fi, rest) =>
      match gcPopLoop rest (needed - fi.size) with
      | none => none
      | some (ks, b, rem) => some (fi.name :: ks, fi.size + b, rem)
termination_by fih.length
decreasing_by
  have := heapPopMin_length _ _ _ h
  omega

/-- The eviction behaviour stated by the specification: pop a minimal-atime
entry and accumulate its size until the accumulated size reaches what is
needed, collecting the popped keys in order. -/
inductive EvictionRun : List FileInfo → Int → List String → Prop where
  | done : ∀ (fih : List FileInfo) (needed : Int), needed ≤ 0 →
      EvictionRun fih needed []
  | step : ∀ (fih : List FileInfo) (needed : Int) (fi : FileInfo) (ks : List String),
      0 < needed → fi ∈ fih →
      (∀ g ∈ fih, fileInfoLess g fi = false) →
      EvictionRun (fih.erase fi) (needed - fi.size) ks →
      EvictionRun fih needed (fi.name :: ks)

theorem gcPopLoop_total (n : Nat) :
    ∀ (fih : List FileInfo) (needed : Int), fih.length ≤ n →
    (∀ fi ∈ fih, 0 ≤ fi.size) → needed ≤ sumSizes fih →
    (gcPopLoop fih needed).isSome := by
  induction n with
  | zero =>
    intro fih needed hlen _ hsum
    have hnil : fih = [] := List.length_eq_zero.mp (Nat.le_zero.mp hlen)
    subst hnil
    simp only [sumSizes] at hsum
    rw [gcPopLoop, if_pos hsum]
    rfl
  | succ n ih =>
    intro fih needed hlen hsz hsum
    rw [gcPopLoop]
    by_cases hn : needed ≤ 0
    · rw [if_pos hn]; rfl
    · rw [if_neg hn]
      cases hx : heapPopMin fih with
      | none =>
        have hnil : fih = [] := (heapPopMin_eq_none fih).mp hx
        subst hnil
        simp only [sumSizes] at hsum
        omega
      | some p =>
        obtain ⟨fi, rest⟩ := p
        obtain ⟨hmem, hrest, _⟩ := heapPopMin_spec fih fi rest hx
        have hlen' : rest.length ≤ n := by
          have := heapPopMin_length fih fi rest hx
          omega
        have hsz' : ∀ g ∈ rest, 0 ≤ g.size := by
          intro g hg
          exact hsz g (List.erase_subset _ _ (hrest ▸ hg))
        have hsum' : needed - fi.size ≤ sumSizes rest := by
          rw [hrest, sumSizes_erase fih fi hmem]
          omega
        have := ih rest (needed - fi.size) hlen' hsz' hsum'
        cases hrec : gcPopLoop rest (needed - fi.size) with
        | none => rw [hrec] at this; simp at this
        | some q =>
          obtain ⟨ks, b, rem⟩ := q
          dsimp only
          rw [hrec]
          rfl

theorem gcPopLoop_evictionRun (n : Nat) :
    ∀ (fih : List FileInfo) (needed : Int) (ks : List String) (b : Int)
      (rem : List FileInfo), fih.length ≤ n →
    gcPopLoop fih needed = some (ks, b, rem) →
    EvictionRun fih needed ks := by
  induction n with
  | zero =>
    intro fih needed ks b rem hlen h
    have hnil : fih = [] := List.length_eq_zero.mp (Nat.le_zero.mp hlen)
    subst hnil
    rw [gcPopLoop] at h
    by_cases hn : needed ≤ 0
    · rw [if_pos hn] at h
      simp only [Option.some.injEq, Prod.mk.injEq] at h
      obtain ⟨hks, _⟩ := h
      rw [← hks]
      exact EvictionRun.done _ _ hn
    · rw [if_neg hn] at h
      have : heapPopMin ([] : List FileInfo) = none := rfl
      rw [this] at h
      simp at h
  | succ n ih =>
    intro fih needed ks b rem hlen h
    rw [gcPopLoop] at h
    by_cases hn : needed ≤ 0
    · rw [if_pos hn] at h
      simp only [Option.some.injEq, Prod.mk.injEq] at h
      obtain ⟨hks, _⟩ := h
      rw [← hks]
      exact EvictionRun.done _ _ hn
    · rw [if_neg hn] at h
      cases hx : heapPopMin fih with
      | none => rw [hx] at h; simp at h
      | some p =>
        obtain ⟨fi, rest⟩ := p
        rw [hx] at h
        dsimp only at h
        cases hrec : gcPopLoop rest (needed - fi.size) with
        | none => rw [hrec] at h; simp at h
        | some q =>
          obtain ⟨ks', b', rem'⟩ := q
          rw [hrec] at h
          simp only [Option.some.injEq, Prod.mk.injEq] at h
          obtain ⟨hks, _⟩ := h
          rw [← hks]
          obtain ⟨hmem, hrest, hmin⟩ := heapPopMin_spec fih fi rest hx
          have hlen' : rest.length ≤ n := by
            have := heapPopMin_length fih fi rest hx
            omega
          exact EvictionRun.step fih needed fi ks' (by omega) hmem hmin
            (hrest ▸ ih rest (needed - fi.size) ks' b' rem' hlen' hrec)

/-- Result of one reclamation cycle of `Cache.gc` (current cache.go):
`popped` is `keysToGc`, `deleted` the keys whose `os.Remove` actually ran and
succeeded, and `logs` the number of `logger.Errorf` calls. -/
structure GcResult where
  popped : List String
  deleted : List String
  logs : Nat
deriving Repr, DecidableEq

/-- Embedding of the deletion loop of `Cache.gc`:

    for _, k := range keysToGc { if err := os.Remove(fp); err != nil { f.logger.Errorf(...); return } }

`removeOk k = false` means `os.Remove` fails on key `k`.  Returns the keys
removed and the number of error-log calls. -/
def gcDelete (removeOk : String → Bool) : List String → List String × Nat
  | [] => ([], 0)
  | k :: ks =>
    if removeOk k then
      let r := gcDelete removeOk ks
      (k :: r.1, r.2)
    else ([], 1)

/-- Embedding of `Cache.gc` from the current cache.go (part of the repo
whose on-disk walk rebuilds the index each cycle).  `files` is the list of
regular files produced by the successful `filepath.Walk` of the cache
directory (a failed walk logs and returns before any decision; that path is
out of scope here), `maxBytes` the configured budget, and `removeOk` drives
`os.Remove`.  `none` is the runtime panic of popping an empty heap. -/
def Cache.gc (files : List FileInfo) (maxBytes : Int) (removeOk : String → Bool) :
    Option GcResult :=
  let curBytes := sumSizes files
  if curBytes ≤ maxBytes then some ⟨[], [], 0⟩
  else
    match gcPopLoop files (curBytes - maxBytes) with
    | none => none
    | some (ks, _, _) =>
      let r := gcDelete removeOk ks
      some ⟨ks, r.1, r.2⟩

theorem gcDelete_all_ok (removeOk : String → Bool) (ks : List String)
    (h : ∀ k ∈ ks, removeOk k = true) :
    gcDelete removeOk ks = (ks, 0) := by
  induction ks with
  | nil => rfl
  | cons k ks ih =>
    have hk := h k (List.mem_cons_self _ _)
    simp only [gcDelete, hk, if_pos]
    rw [ih (fun x hx => h x (List.mem_cons_of_mem _ hx))]

theorem gcDelete_stops_at_failure (removeOk : String → Bool)
    (p rest : List String) (k : String)
    (hp : ∀ x ∈ p, removeOk x = true) (hk : removeOk k = false) :
    gcDelete removeOk (p ++ k :: rest) = (p, 1) := by
  induction p with
  | nil => simp [gcDelete, hk]
  | cons x xs ih =>
    have hx := hp x (List.mem_cons_self _ _)
    have ih' := ih (fun y hy => hp y (List.mem_cons_of_mem _ hy))
    simp [gcDelete, hx, ih']

/-- State of the earlier `FsCache` variant of cache.go: the incrementally
maintained byte count and eviction index. -/
structure FsCacheSt where
  curBytes : Int
  maxBytes : Int
  fih : List FileInfo
deriving Repr, DecidableEq

/-- Outcome of one `FsCache.gc` call. `acquired` records whether
`gcFlock.TryLock()` returned `(true, nil)`, `unlocked` whether the deferred
`gcFlock.Unlock()` ran (it runs whenever the body past `TryLock` was
entered, panic included). -/
structure GcFOut where
  acquired : Bool
  deleted : List String
  unlocked : Bool
  st : FsCacheSt
deriving Repr, DecidableEq

/-- Embedding of the deletion loop of `FsCache.gc`:

    for _, k := range keysToGc { if err := os.Remove(fc.filepath(k)); err != nil { return } }

Returns the deleted prefix and whether the whole list was deleted. -/
def gcfDelete (removeOk : String → Bool) : List String → List String × Bool
  | [] => ([], true)
  | k :: ks =>
    if removeOk k then
      let r := gcfDelete removeOk ks
      (k :: r.1, r.2)
    else ([], false)

/-- Embedding of `FsCache.gc` from the earlier cache.go variant.
`otherHolds` means another process holds the advisory lock on the
`gc.lock` file, so the non-blocking `TryLock` returns `(false, nil)`;
`lockErr` means `TryLock` itself errors.  On a failed deletion the method
returns without adjusting `curBytes`; on success it subtracts the popped
bytes.  `none` is the runtime panic of popping an empty heap (the deferred
`Unlock` still runs during the unwind). -/
def FsCache.gc (otherHolds lockErr : Bool) (st : FsCacheSt)
    (removeOk : String → Bool) : Option GcFOut :=
  let locked := !otherHolds && !lockErr
  if lockErr || !locked then some ⟨false, [], false, st⟩
  else if st.curBytes ≤ st.maxBytes then some ⟨true, [], true, st⟩
  else
    match gcPopLoop st.fih (st.curBytes - st.maxBytes) with
    | none => none
    | some (ks, b, rem) =>
      let r := gcfDelete removeOk ks
      if r.2 then
        some ⟨true, r.1, true, ⟨st.curBytes - b, st.maxBytes, rem⟩⟩
      else
        some ⟨true, r.1, true, ⟨st.curBytes, st.maxBytes, rem⟩⟩

/-- Embedding of the resolved configuration built by `New` in the current
cache.go: field defaults from the `Cache` literal, then the `Option`
functions applied in order. -/
structure Config where
  cacheDir : String
  maxBytes : Int
  gcIntervalNs : Int
deriving Repr, DecidableEq

/-- Embedding of `math.MaxInt64`, the default `maxBytes` in `New`. -/
def maxInt64 : Int := 9223372036854775807

/-- Default `Cache` fields set by `New` before options are applied:
`cacheDir: os.TempDir()`, `maxBytes: math.MaxInt64`,
`gcInterval: 5 * time.Minute` (in nanoseconds). -/
def defaultConfig : Config :=
  { cacheDir := "/tmp", maxBytes := maxInt64, gcIntervalNs := 300000000000 }

/-- Embedding of `WithMaxBytes`. -/
def withMaxBytes (b : Int) : Config → Config :=
  fun c => { c with maxBytes := b }

/-- Embedding of `WithCacheDir`. -/
def withCacheDir (d : String) : Config → Config :=
  fun c => { c with cacheDir := d }

/-- Embedding of `New`'s option application: defaults, then each option in
order. -/
def newConfig (opts : List (Config → Config)) : Config :=
  opts.foldl (fun c o => o c) defaultConfig

/-- Embedding of the guard in `New` that launches the reclamation goroutine:
`if fc.maxBytes > 0 { go fc.gcRunner() }`. -/
def gcStarts (c : Config) : Bool :=
  decide (0 < c.maxBytes)

/-- Lookup in an association-list view of a directory: the file stored
under a name, if present. -/
def lookupKV {α : Type} : List (String × α) → String → Option α
  | [], _ => none
  | (k', v) :: rest, k => if k' = k then some v else lookupKV rest k

/-- Create or replace the file stored under a name. -/
def insertKV {α : Type} : List (String × α) → String → α → List (String × α)
  | [], k, v => [(k, v)]
  | (k', v') :: rest, k, v =>
    if k' = k then (k, v) :: rest else (k', v') :: insertKV rest k v

/-- Remove the file stored under a name (`os.Remove`); removing an absent
name leaves the directory unchanged. -/
def removeKV {α : Type} : List (String × α) → String → List (String × α)
  | [], _ => []
  | (k', v') :: rest, k =>
    if k' = k then rest else (k', v') :: removeKV rest k

theorem lookupKV_insert_self {α : Type} (m : List (String × α)) (k : String) (v : α) :
    lookupKV (insertKV m k v) k = some v := by
  induction m with
  | nil => simp [insertKV, lookupKV]
  | cons p rest ih =>
    obtain ⟨k', v'⟩ := p
    by_cases hk : k' = k
    · simp [insertKV, hk, lookupKV]
    · simp [insertKV, hk, lookupKV, ih]

theorem lookupKV_insert_ne {α : Type} (m : List (String × α)) (k k' : String) (v : α)
    (h : k ≠ k') :
    lookupKV (insertKV m k v) k' = lookupKV m k' := by
  induction m with
  | nil => simp [insertKV, lookupKV, h]
  | cons p rest ih =>
    obtain ⟨k0, v0⟩ := p
    by_cases hk : k0 = k
    · subst hk
      simp [insertKV, lookupKV, h]
    · simp [insertKV, hk, lookupKV, ih]

theorem lookupKV_insert_isSome {α : Type} (m : List (String × α)) (k k' : String)
    (v : α) (h : (lookupKV m k').isSome) :
    (lookupKV (insertKV m k v) k').isSome := by
  by_cases hk : k = k'
  · subst hk
    rw [lookupKV_insert_self]
    rfl
  · rw [lookupKV_insert_ne m k k' v hk]
    exact h

theorem removeKV_insertKV_of_absent {α : Type} (m : List (String × α))
    (k : String) (v : α) (h : lookupKV m k = none) :
    removeKV (insertKV m k v) k = m := by
  induction m with
  | nil => simp [insertKV, removeKV]
  | cons p rest ih =>
    obtain ⟨k', v'⟩ := p
    simp only [lookupKV] at h
    by_cases hk : k' = k
    · rw [if_pos hk] at h
      simp at h
    · rw [if_neg hk] at h
      simp [insertKV, hk, removeKV, ih h]

/-- A committed cache entry as stored on disk: content bytes plus the two
timestamps `os.Chtimes` manipulates. -/
structure File where
  content : List Nat
  atime : Timespec
  mtime : Timespec
deriving Repr, DecidableEq

/-- The two directories the cache uses: `<cacheDir>/cache/<key>` for
committed entries and `<cacheDir>/tmp/<key>` for staging files (the key is
used as the file name in both, `Cache.filepath` / `Cache.tmppath`). -/
structure Fs where
  cache : List (String × File)
  tmp : List (String × List Nat)
deriving Repr, DecidableEq

/-- Success/failure environment for one `atomicWriteFile` call.
`copyFail = some n` means the `io.Copy` from the source reader fails after
`n` bytes were written to the staging file; the remaining flags are the
results of `unix.Flock`, `File.Sync`, `File.Close`, `os.Chmod` and
`os.Rename`. -/
structure WriteEnv where
  flockOk : Bool
  copyFail : Option Nat
  syncOk : Bool
  closeOk : Bool
  chmodOk : Bool
  renameOk : Bool
deriving Repr, DecidableEq

/-- Errors surfaced by the embedded operations. -/
inductive FsErr where
  | notFound
  | errExist
  | flockFail
  | syncFail
  | closeFail
  | chmodFail
  | renameFail
  | readFail
  | statFail
  | chtimesFail
deriving Repr, DecidableEq

/-- Embedding of `atomicFileWriter.Close`.  `written` is the staging file's
content, `writeErr` the `writeErr` field.  The deferred
`os.Remove(w.f.Name())` removes the staging file whenever the returned
error or `writeErr` is non-nil; a successful rename moves the staging file
onto the destination (both timestamps of the committed entry are the write
time `now`). -/
def atomicFileWriter.close (fs : Fs) (key : String) (written : List Nat)
    (writeErr : Bool) (env : WriteEnv) (now : Timespec) : Fs × Option FsErr :=
  let finish : Fs → Option FsErr → Fs × Option FsErr := fun fs' retErr =>
    if retErr.isSome || writeErr then
      ({ fs' with tmp := removeKV fs'.tmp key }, retErr)
    else (fs', retErr)
  if !env.syncOk then finish fs (some .syncFail)
  else if !env.closeOk then finish fs (some .closeFail)
  else if !env.chmodOk then finish fs (some .chmodFail)
  else if !writeErr then
    if env.renameOk then
      finish { cache := insertKV fs.cache key ⟨written, now, now⟩,
               tmp := removeKV fs.tmp key } none
    else finish fs (some .renameFail)
  else finish fs none

/-- Embedding of `atomicWriteFile`: create the staging file exclusively
(`O_EXCL` fails if a staging file for the key already exists), flock it,
copy the source into it (on failure only `writeErr` is recorded), then
return `dst.Close()` — whose result is the only error the caller sees. -/
def atomicWriteFile (fs : Fs) (key : String) (src : List Nat) (env : WriteEnv)
    (now : Timespec) : Fs × Option FsErr :=
  if (lookupKV fs.tmp key).isSome then (fs, some .errExist)
  else
    let fs1 : Fs := { fs with tmp := insertKV fs.tmp key [] }
    if !env.flockOk then (fs1, some .flockFail)
    else
      let written := match env.copyFail with
        | none => src
        | some n => src.take n
      let writeErr := env.copyFail.isSome
      let fs2 : Fs := { fs1 with tmp := insertKV fs1.tmp key written }
      atomicFileWriter.close fs2 key written writeErr env now

/-- Embedding of `Cache.Set`: `atomicWriteFile(f.filepath(key), f.tmppath(key), src, 0644)`. -/
def Cache.Set (fs : Fs) (key : String) (src : List Nat) (env : WriteEnv)
    (now : Timespec) : Fs × Option FsErr :=
  atomicWriteFile fs key src env now

/-- Success/failure environment for one `Cache.Get` call: results of
`ioutil.ReadFile` (when the file exists), `os.Stat` and `os.Chtimes`. -/
structure GetEnv where
  readOk : Bool
  statOk : Bool
  chtimesOk : Bool
deriving Repr, DecidableEq

/-- Result of `Cache.Get`: the filesystem afterwards, the returned byte
slice (`dst` is returned no matter what), and the error. -/
structure GetOut where
  fs : Fs
  dst : List Nat
  err : Option FsErr
deriving Repr, DecidableEq

/-- Embedding of `Cache.Get`: read the entry (absence is `ErrNotFound`),
stat it, `os.Chtimes(fp, time.Now(), fi.ModTime())` — set the access time
to now, keep the modification time — then `dst = append(dst, src...)`. -/
def Cache.Get (fs : Fs) (key : String) (dst : List Nat) (now : Timespec)
    (env : GetEnv) : GetOut :=
  match lookupKV fs.cache key with
  | none => ⟨fs, dst, some .notFound⟩
  | some file =>
    if !env.readOk then ⟨fs, dst, some .readFail⟩
    else if !env.statOk then ⟨fs, dst, some .statFail⟩
    else if !env.chtimesOk then ⟨fs, dst, some .chtimesFail⟩
    else
      ⟨{ fs with cache := insertKV fs.cache key ⟨file.content, now, file.mtime⟩ },
       dst ++ file.content, none⟩

/-- Embedding of `Cache.Has`: `os.Stat(f.filepath(key))` succeeds exactly
when the committed entry exists. -/
def Cache.Has (fs : Fs) (key : String) : Bool :=
  (lookupKV fs.cache key).isSome

/-- The public operational surface of the cache, one constructor per method
of `Interface` in cache.go: `Set`, `Get`, `Has`. -/
inductive PublicOp where
  | setOp (key : String) (src : List Nat) (env : WriteEnv)
  | getOp (key : String) (dst : List Nat) (env : GetEnv)
  | hasOp (key : String)
deriving Repr, DecidableEq

/-- Effect of one public operation on the filesystem. -/
def applyOp (fs : Fs) (now : Timespec) : PublicOp → Fs
  | .setOp key src env => (Cache.Set fs key src env now).1
  | .getOp key dst env => (Cache.Get fs key dst now env).fs
  | .hasOp _ => fs

theorem insertKV_insertKV {α : Type} (m : List (String × α)) (k : String) (a b : α) :
    insertKV (insertKV m k a) k b = insertKV m k b := by
  induction m with
  | nil => simp [insertKV]
  | cons p rest ih =>
    obtain ⟨k', v'⟩ := p
    by_cases hk : k' = k
    · simp [insertKV, hk]
    · simp [insertKV, hk, ih]

/-- A fully successful `atomicWriteFile` commits the new content under the
destination name and leaves the staging directory as it found it. -/
theorem atomicWriteFile_ok (fs : Fs) (key : String) (v : List Nat)
    (wenv : WriteEnv) (now : Timespec)
    (hstale : lookupKV fs.tmp key = none)
    (hflock : wenv.flockOk = true) (hcopy : wenv.copyFail = none)
    (hsync : wenv.syncOk = true) (hclose : wenv.closeOk = true)
    (hchmod : wenv.chmodOk = true) (hrename : wenv.renameOk = true) :
    atomicWriteFile fs key v wenv now =
      (⟨insertKV fs.cache key ⟨v, now, now⟩, fs.tmp⟩, none) := by
  simp only [atomicWriteFile, hstale, Option.isSome_none, Bool.false_eq_true,
    if_false, hflock, Bool.not_true, hcopy, atomicFileWriter.close, hsync,
    hclose, hchmod, hrename, Option.isSome_none]
  simp only [Option.isSome_some, if_true, if_false, Bool.or_false,
    Option.isSome_none, Bool.false_eq_true, Bool.not_false]
  rw [insertKV_insertKV, removeKV_insertKV_of_absent _ _ _ hstale]

/-- When the write into the staging file already failed (`writeErr` set),
`Close` never renames: the destination directory is untouched and the
deferred `os.Remove` discards the staging file. -/
theorem close_writeErr_effects (fs : Fs) (key : String) (written : List Nat)
    (env : WriteEnv) (now : Timespec) :
    (atomicFileWriter.close fs key written true env now).1.cache = fs.cache ∧
    (atomicFileWriter.close fs key written true env now).1.tmp = removeKV fs.tmp key := by
  unfold atomicFileWriter.close
  by_cases hs : env.syncOk
  · by_cases hc : env.closeOk
    · by_cases hm : env.chmodOk
      · simp [hs, hc, hm]
      · simp [hs, hc, hm]
    · simp [hs, hc]
  · simp [hs]

/-- `Close` touches the destination directory only through a successful
rename, which inserts: presence of any committed entry is preserved. -/
theorem close_cache_preserves (fs : Fs) (key : String) (written : List Nat)
    (writeErr : Bool) (env : WriteEnv) (now : Timespec) (k : String)
    (h : (lookupKV fs.cache k).isSome) :
    (lookupKV (atomicFileWriter.close fs key written writeErr env now).1.cache k).isSome := by
  unfold atomicFileWriter.close
  by_cases hs : env.syncOk
  · by_cases hc : env.closeOk
    · by_cases hm : env.chmodOk
      · by_cases hw : writeErr
        · simp [hs, hc, hm, hw, h]
        · by_cases hr : env.renameOk
          · simp only [hs, hc, hm, hw, hr, Bool.not_true, Bool.not_false,
              Bool.false_eq_true, if_false, if_true]
            simp only [Option.isSome_none, Bool.or_false, Bool.false_eq_true,
              if_false, if_true]
            exact lookupKV_insert_isSome _ _ _ _ h
          · simp [hs, hc, hm, hw, hr, h]
      · simp [hs, hc, hm, h]
    · simp [hs, hc, h]
  · simp [hs, h]

/-- Claim C1: for every reclamation cycle, if the total size of the walked
entries is at most `maxBytes` the cycle evicts nothing; otherwise it
repeatedly pops the entry with the smallest access time, accumulating the
popped sizes until they reach `curBytes - maxBytes` (the `EvictionRun`
predicate), and — deletions succeeding — deletes exactly the files of the
popped keys. -/
theorem gc_cycle_greedy_eviction (files : List FileInfo) (maxBytes : Int)
    (removeOk : String → Bool)
    (hsz : ∀ fi ∈ files, 0 ≤ fi.size) (hmb : 0 < maxBytes)
    (hrm : ∀ k, removeOk k = true) :
    ∃ r, Cache.gc files maxBytes removeOk = some r ∧
      r.deleted = r.popped ∧
      (sumSizes files ≤ maxBytes → r.popped = []) ∧
      (maxBytes < sumSizes files →
        EvictionRun files (sumSizes files - maxBytes) r.popped) := by
  unfold Cache.gc
  by_cases hc : sumSizes files ≤ maxBytes
  · refine ⟨⟨[], [], 0⟩, ?_, rfl, fun _ => rfl, fun hlt => absurd hlt (by omega)⟩
    simp [hc]
  · have htot := gcPopLoop_total files.length files (sumSizes files - maxBytes)
      (Nat.le_refl _) hsz (by omega)
    cases hpop : gcPopLoop files (sumSizes files - maxBytes) with
    | none => rw [hpop] at htot; simp at htot
    | some q =>
      obtain ⟨ks, b, rem⟩ := q
      have hdel := gcDelete_all_ok removeOk ks (fun k _ => hrm k)
      refine ⟨⟨ks, ks, 0⟩, ?_, rfl, fun hle => absurd hle hc, fun _ =>
        gcPopLoop_evictionRun files.length files _ ks b rem (Nat.le_refl _) hpop⟩
      simp only [hc, if_false, hpop, hdel]

/-- Claim C9: if deleting one of the collected keys fails, the cycle deletes
only the keys before it, performs no further deletions, logs exactly one
error, and returns normally. -/
theorem gc_deletion_failure_aborts_pass (files : List FileInfo) (maxBytes : Int)
    (removeOk : String → Bool) (r : GcResult) (p rest : List String) (k : String)
    (hgc : Cache.gc files maxBytes removeOk = some r)
    (hsplit : r.popped = p ++ k :: rest)
    (hp : ∀ x ∈ p, removeOk x = true) (hk : removeOk k = false) :
    r.deleted = p ∧ r.logs = 1 := by
  unfold Cache.gc at hgc
  by_cases hc : sumSizes files ≤ maxBytes
  · rw [if_pos hc] at hgc
    simp only [Option.some.injEq] at hgc
    rw [← hgc] at hsplit
    simp at hsplit
  · rw [if_neg hc] at hgc
    cases hpop : gcPopLoop files (sumSizes files - maxBytes) with
    | none => rw [hpop] at hgc; simp at hgc
    | some q =>
      obtain ⟨ks, b, rem⟩ := q
      rw [hpop] at hgc
      simp only [Option.some.injEq] at hgc
      have hks : r.popped = ks := by rw [← hgc]
      rw [hks] at hsplit
      subst hsplit
      have := gcDelete_stops_at_failure removeOk p rest k hp hk
      rw [this] at hgc
      rw [← hgc]
      exact ⟨rfl, rfl⟩

theorem gc_cycle_greedy_eviction_witness :
    ∃ r, Cache.gc [⟨"a", 2, ⟨0, 0⟩⟩, ⟨"b", 1, ⟨1, 0⟩⟩] 2 (fun _ => true) = some r ∧
      r.deleted = r.popped ∧
      (sumSizes [⟨"a", 2, ⟨0, 0⟩⟩, ⟨"b", 1, ⟨1, 0⟩⟩] ≤ 2 → r.popped = []) ∧
      (2 < sumSizes [⟨"a", 2, ⟨0, 0⟩⟩, ⟨"b", 1, ⟨1, 0⟩⟩] →
        EvictionRun [⟨"a", 2, ⟨0, 0⟩⟩, ⟨"b", 1, ⟨1, 0⟩⟩]
          (sumSizes [⟨"a", 2, ⟨0, 0⟩⟩, ⟨"b", 1, ⟨1, 0⟩⟩] - 2) r.popped) :=
  gc_cycle_greedy_eviction [⟨"a", 2, ⟨0, 0⟩⟩, ⟨"b", 1, ⟨1, 0⟩⟩] 2 (fun _ => true)
    (by decide) (by decide) (fun _ => rfl)

set_option maxRecDepth 4000 in
theorem gc_deletion_failure_aborts_pass_witness :
    GcResult.deleted ⟨["a"], [], 1⟩ = [] ∧ GcResult.logs ⟨["a"], [], 1⟩ = 1 :=
  gc_deletion_failure_aborts_pass [⟨"a", 2, ⟨0, 0⟩⟩, ⟨"b", 1, ⟨1, 0⟩⟩] 1
    (fun _ => false) ⟨["a"], [], 1⟩ [] [] "a"
    (by simp [Cache.gc, gcPopLoop, heapPopMin, fileInfoLess, Timespec.before,
      sumSizes, gcDelete])
    rfl (fun x hx => absurd hx (List.not_mem_nil x)) rfl

/-- Claim C6 counterexample: with `maxBytes` left unset, `New` defaults it
to `math.MaxInt64`, so the guard `maxBytes > 0` holds and the reclamation
goroutine is started (each of whose ticks walks the cache directory) —
contradicting "left unset ... the reclamation cycle never starts". -/
theorem gc_starts_with_default_config :
    gcStarts (newConfig []) = true ∧ (newConfig []).maxBytes = maxInt64 :=
  ⟨rfl, rfl⟩

/-- Claim C6 as amended: the reclamation cycle never starts exactly when the
configured `maxBytes` is not positive; configuring 0 disables it, but an
unset `maxBytes` defaults to `math.MaxInt64`, so the cycle does start — it
scans each tick yet evicts nothing while the total size stays within the
budget. -/
theorem gc_start_guard_maxBytes_positive (b : Int) (files : List FileInfo)
    (removeOk : String → Bool) (hb : b ≤ 0) (hsum : sumSizes files ≤ maxInt64) :
    gcStarts (newConfig [withMaxBytes b]) = false ∧
    gcStarts (newConfig []) = true ∧
    Cache.gc files maxInt64 removeOk = some ⟨[], [], 0⟩ := by
  refine ⟨?_, rfl, ?_⟩
  · simp only [gcStarts, newConfig, withMaxBytes, defaultConfig, List.foldl]
    simp only [decide_eq_false_iff_not]
    omega
  · unfold Cache.gc
    simp [hsum]

theorem gc_start_guard_maxBytes_positive_witness :
    gcStarts (newConfig [withMaxBytes 0]) = false ∧
    gcStarts (newConfig []) = true ∧
    Cache.gc [⟨"a", 1, ⟨0, 0⟩⟩] maxInt64 (fun _ => true) = some ⟨[], [], 0⟩ :=
  gc_start_guard_maxBytes_positive 0 [⟨"a", 1, ⟨0, 0⟩⟩] (fun _ => true)
    (by decide) (by decide)

/-- Claim C7: each `FsCache.gc` cycle first try-locks the advisory
`gc.lock`; if the lock is held (or try-lock errors) the whole tick is
skipped with no deletions, no state change and no error; deletions happen
only after a successful acquisition; and the deferred `Unlock` releases the
lock at the end of every entered cycle. -/
theorem gc_advisory_lock_guards_cycle (otherHolds lockErr : Bool)
    (st : FsCacheSt) (removeOk : String → Bool)
    (hinv : st.curBytes = sumSizes st.fih)
    (hsz : ∀ fi ∈ st.fih, 0 ≤ fi.size) (hmb : 0 ≤ st.maxBytes) :
    ∃ out, FsCache.gc otherHolds lockErr st removeOk = some out ∧
      ((otherHolds = true ∨ lockErr = true) →
        out.acquired = false ∧ out.deleted = [] ∧ out.unlocked = false ∧
        out.st = st) ∧
      (out.acquired = false → out.deleted = []) ∧
      (out.acquired = true → out.unlocked = true) ∧
      (otherHolds = false → lockErr = false → out.acquired = true) := by
  unfold FsCache.gc
  by_cases ho : otherHolds
  · refine ⟨⟨false, [], false, st⟩, ?_, fun _ => ⟨rfl, rfl, rfl, rfl⟩,
      fun _ => rfl, fun hacq => by simp at hacq, fun h1 _ => absurd ho (by simp [h1])⟩
    simp [ho]
  · by_cases hl : lockErr
    · refine ⟨⟨false, [], false, st⟩, ?_, fun _ => ⟨rfl, rfl, rfl, rfl⟩,
        fun _ => rfl, fun hacq => by simp at hacq, fun _ h2 => absurd hl (by simp [h2])⟩
      simp [hl]
    · simp only [Bool.not_eq_true] at ho hl
      by_cases hcur : st.curBytes ≤ st.maxBytes
      · refine ⟨⟨true, [], true, st⟩, ?_, ?_, fun _ => rfl, fun _ => rfl,
          fun _ _ => rfl⟩
        · simp [ho, hl, hcur]
        · rintro (h | h) <;> simp [ho, hl] at h
      · have htot := gcPopLoop_total st.fih.length st.fih
          (st.curBytes - st.maxBytes) (Nat.le_refl _) hsz (by omega)
        cases hpop : gcPopLoop st.fih (st.curBytes - st.maxBytes) with
        | none => rw [hpop] at htot; simp at htot
        | some q =>
          obtain ⟨ks, b, rem⟩ := q
          by_cases hall : (gcfDelete removeOk ks).2
          · refine ⟨⟨true, (gcfDelete removeOk ks).1, true,
              ⟨st.curBytes - b, st.maxBytes, rem⟩⟩, ?_, ?_, fun h => by simp at h,
              fun _ => rfl, fun _ _ => rfl⟩
            · simp [ho, hl, hcur, hpop, hall]
            · rintro (h | h) <;> simp [ho, hl] at h
          · refine ⟨⟨true, (gcfDelete removeOk ks).1, true,
              ⟨st.curBytes, st.maxBytes, rem⟩⟩, ?_, ?_, fun h => by simp at h,
              fun _ => rfl, fun _ _ => rfl⟩
            · simp [ho, hl, hcur, hpop, hall]
            · rintro (h | h) <;> simp [ho, hl] at h

theorem gc_advisory_lock_guards_cycle_witness :
    ∃ out, FsCache.gc true false ⟨3, 1, [⟨"a", 3, ⟨0, 0⟩⟩]⟩ (fun _ => true) =
        some out ∧
      ((true = true ∨ false = true) →
        out.acquired = false ∧ out.deleted = [] ∧ out.unlocked = false ∧
        out.st = ⟨3, 1, [⟨"a", 3, ⟨0, 0⟩⟩]⟩) ∧
      (out.acquired = false → out.deleted = []) ∧
      (out.acquired = true → out.unlocked = true) ∧
      (true = false → false = false → out.acquired = true) :=
  gc_advisory_lock_guards_cycle true false ⟨3, 1, [⟨"a", 3, ⟨0, 0⟩⟩]⟩
    (fun _ => true) (by decide) (by decide) (by decide)

/-- Claim C2: a Set whose underlying operations all succeed, followed by a
Get of the same key with a nil destination and no eviction or other writer
in between, returns exactly the bytes that were set. -/
theorem set_then_get_roundtrip (fs : Fs) (key : String) (v : List Nat)
    (wenv : WriteEnv) (genv : GetEnv) (now now' : Timespec)
    (hstale : lookupKV fs.tmp key = none)
    (hflock : wenv.flockOk = true) (hcopy : wenv.copyFail = none)
    (hsync : wenv.syncOk = true) (hclose : wenv.closeOk = true)
    (hchmod : wenv.chmodOk = true) (hrename : wenv.renameOk = true)
    (hread : genv.readOk = true) (hstat : genv.statOk = true)
    (hcht : genv.chtimesOk = true) :
    (Cache.Set fs key v wenv now).2 = none ∧
    (Cache.Get (Cache.Set fs key v wenv now).1 key [] now' genv).dst = v ∧
    (Cache.Get (Cache.Set fs key v wenv now).1 key [] now' genv).err = none := by
  have hset := atomicWriteFile_ok fs key v wenv now hstale hflock hcopy hsync
    hclose hchmod hrename
  unfold Cache.Set
  rw [hset]
  refine ⟨rfl, ?_, ?_⟩ <;>
    simp [Cache.Get, lookupKV_insert_self, hread, hstat, hcht]

theorem set_then_get_roundtrip_witness :
    (Cache.Set ⟨[], []⟩ "k" [7, 8] ⟨true, none, true, true, true, true⟩ ⟨1, 0⟩).2 = none ∧
    (Cache.Get (Cache.Set ⟨[], []⟩ "k" [7, 8] ⟨true, none, true, true, true, true⟩ ⟨1, 0⟩).1
      "k" [] ⟨2, 0⟩ ⟨true, true, true⟩).dst = [7, 8] ∧
    (Cache.Get (Cache.Set ⟨[], []⟩ "k" [7, 8] ⟨true, none, true, true, true, true⟩ ⟨1, 0⟩).1
      "k" [] ⟨2, 0⟩ ⟨true, true, true⟩).err = none :=
  set_then_get_roundtrip ⟨[], []⟩ "k" [7, 8] ⟨true, none, true, true, true, true⟩
    ⟨true, true, true⟩ ⟨1, 0⟩ ⟨2, 0⟩ rfl rfl rfl rfl rfl rfl rfl rfl rfl rfl

/-- A Set whose `io.Copy` into the staging file fails leaves the whole
filesystem as it was: nothing is renamed, the destination keeps its old
content or absence, and the staging file is gone. -/
theorem Fs.eq_of_fields {a b : Fs} (hc : a.cache = b.cache)
    (ht : a.tmp = b.tmp) : a = b := by
  cases a
  cases b
  cases hc
  cases ht
  rfl

theorem atomicWriteFile_copyFail (fs : Fs) (key : String) (v : List Nat)
    (wenv : WriteEnv) (now : Timespec) (n : Nat)
    (hstale : lookupKV fs.tmp key = none)
    (hflock : wenv.flockOk = true) (hcopy : wenv.copyFail = some n) :
    (atomicWriteFile fs key v wenv now).1 = fs := by
  have hins : ∀ (w : List Nat), removeKV (insertKV fs.tmp key w) key = fs.tmp :=
    fun w => removeKV_insertKV_of_absent fs.tmp key w hstale
  unfold atomicWriteFile
  rw [hstale]
  simp only [Option.isSome_none, Option.isSome_some, Bool.false_eq_true,
    if_false, hflock, Bool.not_true, hcopy]
  obtain ⟨hcache, htmp⟩ := close_writeErr_effects
    ⟨fs.cache, insertKV (insertKV fs.tmp key []) key (v.take n)⟩ key (v.take n)
    wenv now
  refine Fs.eq_of_fields ?_ ?_
  · exact hcache
  · rw [htmp]
    simp only
    rw [insertKV_insertKV, hins]

/-- Claim C3: for every Set whose write into the staging file fails
partway, the staging file is deleted and never renamed into place, and the
destination path's previous content or absence is unchanged. -/
theorem set_write_failure_leaves_destination_untouched (fs : Fs) (key : String)
    (v : List Nat) (wenv : WriteEnv) (now : Timespec) (n : Nat)
    (hstale : lookupKV fs.tmp key = none)
    (hflock : wenv.flockOk = true) (hcopy : wenv.copyFail = some n) :
    (Cache.Set fs key v wenv now).1 = fs ∧
    lookupKV (Cache.Set fs key v wenv now).1.tmp key = none ∧
    lookupKV (Cache.Set fs key v wenv now).1.cache key = lookupKV fs.cache key := by
  have hmain := atomicWriteFile_copyFail fs key v wenv now n hstale hflock hcopy
  have hmain' : (Cache.Set fs key v wenv now).1 = fs := hmain
  refine ⟨hmain', ?_, ?_⟩
  · rw [hmain']
    exact hstale
  · rw [hmain']

theorem set_write_failure_leaves_destination_untouched_witness :
    (Cache.Set ⟨[("k", ⟨[9], ⟨0, 0⟩, ⟨0, 0⟩⟩)], []⟩ "k" [1, 2]
      ⟨true, some 1, true, true, true, true⟩ ⟨1, 0⟩).1 =
      ⟨[("k", ⟨[9], ⟨0, 0⟩, ⟨0, 0⟩⟩)], []⟩ ∧
    lookupKV (Cache.Set ⟨[("k", ⟨[9], ⟨0, 0⟩, ⟨0, 0⟩⟩)], []⟩ "k" [1, 2]
      ⟨true, some 1, true, true, true, true⟩ ⟨1, 0⟩).1.tmp "k" = none ∧
    lookupKV (Cache.Set ⟨[("k", ⟨[9], ⟨0, 0⟩, ⟨0, 0⟩⟩)], []⟩ "k" [1, 2]
      ⟨true, some 1, true, true, true, true⟩ ⟨1, 0⟩).1.cache "k" =
      lookupKV [("k", ⟨[9], ⟨0, 0⟩, ⟨0, 0⟩⟩)] "k" :=
  set_write_failure_leaves_destination_untouched
    ⟨[("k", ⟨[9], ⟨0, 0⟩, ⟨0, 0⟩⟩)], []⟩ "k" [1, 2]
    ⟨true, some 1, true, true, true, true⟩ ⟨1, 0⟩ 1 rfl rfl rfl

/-- Claim C4 evaluation at the failing input: a Set whose `io.Copy` into the
staging file fails after one byte, with sync, close and chmod succeeding,
returns a nil error — `atomicWriteFile` returns `dst.Close()`, and `Close`
returns nil when only `writeErr` is set — even though nothing was
committed.  The claim (and the spec) say the I/O failure is surfaced to
the caller, so this is a bug in the code. -/
theorem set_copy_failure_reported_as_success :
    (Cache.Set ⟨[], []⟩ "k" [1, 2, 3] ⟨true, some 1, true, true, true, true⟩ ⟨0, 0⟩).2 =
      none ∧
    lookupKV (Cache.Set ⟨[], []⟩ "k" [1, 2, 3] ⟨true, some 1, true, true, true, true⟩
      ⟨0, 0⟩).1.cache "k" = none ∧
    (Cache.Get (Cache.Set ⟨[], []⟩ "k" [1, 2, 3] ⟨true, some 1, true, true, true, true⟩
      ⟨0, 0⟩).1 "k" [] ⟨1, 0⟩ ⟨true, true, true⟩).err = some .notFound :=
  ⟨rfl, rfl, rfl⟩

/-- Claim C5: a successful Get of an existing entry sets the entry's access
time to now and leaves its modification time exactly as it was. -/
theorem get_sets_atime_preserves_mtime (fs : Fs) (key : String) (dst : List Nat)
    (file : File) (now : Timespec) (genv : GetEnv)
    (hfile : lookupKV fs.cache key = some file)
    (hread : genv.readOk = true) (hstat : genv.statOk = true)
    (hcht : genv.chtimesOk = true) :
    (Cache.Get fs key dst now genv).err = none ∧
    lookupKV (Cache.Get fs key dst now genv).fs.cache key =
      some ⟨file.content, now, file.mtime⟩ := by
  unfold Cache.Get
  rw [hfile]
  simp [hread, hstat, hcht, lookupKV_insert_self]

theorem get_sets_atime_preserves_mtime_witness :
    (Cache.Get ⟨[("k", ⟨[1], ⟨3, 0⟩, ⟨4, 0⟩⟩)], []⟩ "k" [] ⟨9, 0⟩ ⟨true, true, true⟩).err =
      none ∧
    lookupKV (Cache.Get ⟨[("k", ⟨[1], ⟨3, 0⟩, ⟨4, 0⟩⟩)], []⟩ "k" [] ⟨9, 0⟩
      ⟨true, true, true⟩).fs.cache "k" = some ⟨[1], ⟨9, 0⟩, ⟨4, 0⟩⟩ :=
  get_sets_atime_preserves_mtime ⟨[("k", ⟨[1], ⟨3, 0⟩, ⟨4, 0⟩⟩)], []⟩ "k" []
    ⟨[1], ⟨3, 0⟩, ⟨4, 0⟩⟩ ⟨9, 0⟩ ⟨true, true, true⟩ rfl rfl rfl rfl

/-- Claim C10: a successful Get appends the entry's content to the caller's
destination slice — `dst = append(dst, src...)` — so a non-empty `dst` is
returned as prefix followed by the stored value. -/
theorem get_appends_to_destination (fs : Fs) (key : String) (dst : List Nat)
    (file : File) (now : Timespec) (genv : GetEnv)
    (hfile : lookupKV fs.cache key = some file)
    (hread : genv.readOk = true) (hstat : genv.statOk = true)
    (hcht : genv.chtimesOk = true) :
    (Cache.Get fs key dst now genv).err = none ∧
    (Cache.Get fs key dst now genv).dst = dst ++ file.content := by
  unfold Cache.Get
  rw [hfile]
  simp [hread, hstat, hcht]

theorem get_appends_to_destination_witness :
    (Cache.Get ⟨[("k", ⟨[1, 2], ⟨3, 0⟩, ⟨4, 0⟩⟩)], []⟩ "k" [9, 9] ⟨9, 0⟩
      ⟨true, true, true⟩).err = none ∧
    (Cache.Get ⟨[("k", ⟨[1, 2], ⟨3, 0⟩, ⟨4, 0⟩⟩)], []⟩ "k" [9, 9] ⟨9, 0⟩
      ⟨true, true, true⟩).dst = [9, 9] ++ [1, 2] :=
  get_appends_to_destination ⟨[("k", ⟨[1, 2], ⟨3, 0⟩, ⟨4, 0⟩⟩)], []⟩ "k" [9, 9]
    ⟨[1, 2], ⟨3, 0⟩, ⟨4, 0⟩⟩ ⟨9, 0⟩ ⟨true, true, true⟩ rfl rfl rfl rfl

/-- Claim C8: the public surface is exactly Set, Get and Has (`PublicOp`
mirrors `Interface` in cache.go), and no public operation ever removes a
committed entry — removal happens only in the reclamation cycle. -/
theorem public_ops_never_remove_entries (fs : Fs) (now : Timespec)
    (op : PublicOp) (k : String) (h : Cache.Has fs k = true) :
    Cache.Has (applyOp fs now op) k = true := by
  cases op with
  | hasOp _ => exact h
  | getOp key dst env =>
    simp only [applyOp]
    unfold Cache.Get
    cases hl : lookupKV fs.cache key with
    | none => exact h
    | some file =>
      by_cases hr : env.readOk
      · by_cases hs : env.statOk
        · by_cases hcht : env.chtimesOk
          · simp only [hr, hs, hcht, Bool.not_true, Bool.false_eq_true,
              if_false]
            unfold Cache.Has at h ⊢
            exact lookupKV_insert_isSome _ _ _ _ h
          · simp [hr, hs, hcht, h]
        · simp [hr, hs, h]
      · simp [hr, h]
  | setOp key src env =>
    simp only [applyOp]
    unfold Cache.Set atomicWriteFile
    by_cases hst : (lookupKV fs.tmp key).isSome
    · simp [hst, h]
    · by_cases hf : env.flockOk
      · simp only [hst, Bool.false_eq_true, if_false, hf, Bool.not_true]
        unfold Cache.Has at h ⊢
        exact close_cache_preserves _ key _ _ env now k h
      · have hf' : env.flockOk = false := Bool.of_not_eq_true hf
        simp only [hst, Bool.false_eq_true, if_false, hf', Bool.not_false,
          if_true]
        exact h

theorem public_ops_never_remove_entries_witness :
    Cache.Has (applyOp ⟨[("k", ⟨[1], ⟨0, 0⟩, ⟨0, 0⟩⟩)], []⟩ ⟨5, 0⟩
      (.setOp "j" [2] ⟨true, none, true, true, true, true⟩)) "k" = true :=
  public_ops_never_remove_entries ⟨[("k", ⟨[1], ⟨0, 0⟩, ⟨0, 0⟩⟩)], []⟩ ⟨5, 0⟩
    (.setOp "j" [2] ⟨true, none, true, true, true, true⟩) "k" rfl
